import Mathlib

/-!
Verification development for `generate_azure_ipam.py`.

The script's algorithmic core is `find_unused_subnets`, which carves the
occupied sub-blocks out of a parent CIDR block by repeated binary
subdivision (Python's `ipaddress.address_exclude`), plus the row sorter
`sort_ipam_dataframe` and the aggregate `get_pie_data`.

We embed the relevant Python functions shallowly:
* an `ipaddress.ip_network` value of one address family is a `Net`
  (integer network address + prefix length); the address width of the
  family (32 for IPv4, 128 for IPv6) is an explicit parameter `w`.
  All blocks handled by one call of the engine belong to one family,
  as in the script (the used set only contains subnets of the parent).
* Python exceptions are modelled by `Option`: `none` is a raised
  exception (`ValueError` from `subnets`/`address_exclude`, or the
  `AssertionError` inside the exclusion loop), `some` a normal return.
* the loop in `address_exclude` is given explicit fuel `w + 1`, which
  dominates the number of iterations Python can perform before either
  terminating or raising (each iteration lengthens the prefix by one,
  and `subnets` raises once the prefix cannot grow past the width).
-/

/-- An `ipaddress.ip_network` value of a fixed address family:
`addr` is the integer network address, `plen` the prefix length. -/
structure Net where
  addr : Nat
  plen : Nat
deriving DecidableEq, Repr

/-- `num_addresses` of a block: `2 ^ (width - prefixlen)`. -/
def num_addresses (w : Nat) (n : Net) : Nat := 2 ^ (w - n.plen)

/-- `network.broadcast_address` as an integer: last address of the block. -/
def broadcast_address (w : Nat) (n : Net) : Nat := n.addr + num_addresses w n - 1

/-- Python `a.subnet_of(b)`: the address range of `a` is inside that of `b`
(`b.network_address <= a.network_address and a.broadcast_address <= b.broadcast_address`). -/
def subnet_of (w : Nat) (a b : Net) : Bool :=
  decide (b.addr ≤ a.addr) && decide (broadcast_address w a ≤ broadcast_address w b)

/-- Python `network.subnets()` (with the default `prefixlen_diff=1`): the two
equal halves of a block.  Raises (`none`) when the prefix cannot be
lengthened beyond the address width. -/
def subnets (w : Nat) (n : Net) : Option (Net × Net) :=
  if n.plen < w then
    some (⟨n.addr, n.plen + 1⟩, ⟨n.addr + 2 ^ (w - (n.plen + 1)), n.plen + 1⟩)
  else none

/-- The `while s1 != other and s2 != other` loop of Python
`ipaddress._BaseNetwork.address_exclude`, with explicit fuel.  At each
round the generator yields the sibling half not containing `other` and
recurses into the half containing it; when neither half contains `other`
Python raises `AssertionError` (here `none`). -/
def exclude_loop (w : Nat) (other : Net) : Nat → Net → Net → Option (List Net)
  | 0, _, _ => none
  | fuel + 1, s1, s2 =>
    if s1 = other then some [s2]
    else if s2 = other then some [s1]
    else if subnet_of w other s1 then
      match subnets w s1 with
      | none => none
      | some (t1, t2) => (exclude_loop w other fuel t1 t2).map (fun l => s2 :: l)
    else if subnet_of w other s2 then
      match subnets w s2 with
      | none => none
      | some (t1, t2) => (exclude_loop w other fuel t1 t2).map (fun l => s1 :: l)
    else none

/-- Python `a.address_exclude(other)` (the list of the generator's yields,
in yield order): raises (`none`) when `other` is not a subnet of `a`;
returns nothing when `other` equals `a`; otherwise splits and loops. -/
def address_exclude (w : Nat) (a other : Net) : Option (List Net) :=
  if subnet_of w other a then
    if other = a then some []
    else
      match subnets w a with
      | none => none
      | some (s1, s2) => exclude_loop w other (w + 1) s1 s2
  else none

/-- One round of the inner `for a in available` loop of
`find_unused_subnets` for a single used block `u`: blocks containing `u`
are replaced by `a.address_exclude(u)`, the others are kept. -/
def exclude_step (w : Nat) (u : Net) : List Net → Option (List Net)
  | [] => some []
  | a :: rest =>
    match (if subnet_of w u a then address_exclude w a u else some [a]) with
    | none => none
    | some hd =>
      match exclude_step w u rest with
      | none => none
      | some tl => some (hd ++ tl)

/-- The outer `for u in used` loop of `find_unused_subnets`. -/
def exclude_all (w : Nat) : List Net → List Net → Option (List Net)
  | avail, [] => some avail
  | avail, u :: rest =>
    match exclude_step w u avail with
    | none => none
    | some avail2 => exclude_all w avail2 rest

/-- The sort key of line 89: `key=lambda n: (n.network_address, n.prefixlen)`;
`usedLE` is the corresponding (non-strict, total) comparison on blocks.
Python's `sorted` is a stable sort for this comparison. -/
def usedLE (a b : Net) : Bool :=
  decide (a.addr < b.addr) || (decide (a.addr = b.addr) && decide (a.plen ≤ b.plen))

/-- `find_unused_subnets(parent_cidr, used_networks)`: sort the used blocks
by (address, prefix length), start from `[parent_cidr]` and exclude each
used block from every available block that fully contains it. -/
def find_unused_subnets (w : Nat) (parent_cidr : Net) (used_networks : List Net) :
    Option (List Net) :=
  exclude_all w [parent_cidr] (used_networks.mergeSort usedLE)

/-- Validity invariant of every `ipaddress.ip_network` value: the prefix
length fits the address width and the network address has no host bits
set (it is a multiple of the block size). -/
def Net.Valid (w : Nat) (n : Net) : Prop :=
  n.plen ≤ w ∧ n.addr % 2 ^ (w - n.plen) = 0

instance (w : Nat) (n : Net) : Decidable (n.Valid w) :=
  inferInstanceAs (Decidable (_ ∧ _))

/-- The set of integer addresses covered by a block. -/
def Net.block (w : Nat) (n : Net) : Finset Nat :=
  Finset.Ico n.addr (n.addr + 2 ^ (w - n.plen))

/-- Union of the address sets of a list of blocks. -/
def unionBlocks (w : Nat) (l : List Net) : Finset Nat :=
  l.foldr (fun n s => n.block w ∪ s) ∅

/-- Side condition of the engine's exact-cover contract: along the run, in
processing order, each occupied block is fully contained in some block of
the current working set (and the step itself does not raise). -/
def run_contained (w : Nat) : List Net → List Net → Bool
  | _, [] => true
  | avail, u :: rest =>
    avail.any (fun a => subnet_of w u a) &&
      (match exclude_step w u avail with
       | none => false
       | some avail2 => run_contained w avail2 rest)

/-- Sort-relevant content of one row of the IPAM DataFrame.
`ipKey` is the value `ip_key` computes from the `Address` column: the
integer network address when the text parses (`int(ip_network(addr).network_address)`),
`none` (Python `float('inf')`, which sorts after every number) when it
does not, e.g. for the `N/A` of a `No address space assigned` row.
`plenKey` is the `CIDR Prefix` column: a number, or `none` for the text
`N/A` (pandas orders the non-numeric entries after all numeric ones).
`status` is the `Status` column.  `payload` stands for the remaining
columns, which do not participate in sorting. -/
structure IRow where
  ipKey : Option Nat
  plenKey : Option Nat
  status : String
  payload : Nat
deriving DecidableEq, Repr

/-- Strict comparison of address-sort keys, `none` acting as `float('inf')`. -/
def optLT (a b : Option Nat) : Bool :=
  match a, b with
  | some x, some y => decide (x < y)
  | some _, none => true
  | none, _ => false

/-- The lexicographic row comparison realized by
`df.sort_values(by=["_ip_sort", "CIDR Prefix", "Status"])`. -/
def rowLE (r s : IRow) : Bool :=
  optLT r.ipKey s.ipKey ||
    (decide (r.ipKey = s.ipKey) &&
      (optLT r.plenKey s.plenKey ||
        (decide (r.plenKey = s.plenKey) && decide (r.status ≤ s.status))))

/-- `sort_ipam_dataframe`: stable sort of the rows by
(numeric address, prefix length, status); pandas' multi-column
`sort_values` is a stable lexicographic sort. -/
def sort_ipam_dataframe (rows : List IRow) : List IRow :=
  rows.mergeSort rowLE

/-- Content of one row as consumed by `get_pie_data`: the parsed
`Address`/`CIDR Prefix` pair and the `Status` text.  (`get_pie_data`
parses `Address/CIDR Prefix` only for rows whose status is `Used`, and
those rows always carry a concrete network.) -/
structure PRow where
  addr : Nat
  plen : Nat
  status : String
deriving DecidableEq, Repr

/-- One entry of the pie-chart data: the `Allocated`/`Unallocated` pair. -/
structure PieEntry where
  allocated : Nat
  unallocated : Int
deriving DecidableEq, Repr

/-- The generator-sum in `get_pie_data`:
`sum(ip_network(...).num_addresses for row in rows if row["Status"] == "Used")`. -/
def used_ips (w : Nat) (rows : List PRow) : Nat :=
  (rows.filter (fun r => r.status == "Used")).foldl (fun acc r => acc + 2 ^ (w - r.plen)) 0

/-- `get_pie_data(user_cidrs, cidr_data)`: per parent CIDR, `Allocated` is
the summed size of its `Used` rows and `Unallocated` is
`max(total_ips - used_ips, 0)`.  The Python dict keyed by `str(cidr)` is
modelled by the mapping `cidr_data`. -/
def get_pie_data (w : Nat) (user_cidrs : List Net) (cidr_data : Net → List PRow) :
    List PieEntry :=
  user_cidrs.map (fun cidr =>
    { allocated := used_ips w (cidr_data cidr),
      unallocated := max ((num_addresses w cidr : Int) - (used_ips w (cidr_data cidr) : Int)) 0 })

/-! ### Basic facts about blocks -/

lemma two_pow_pos (k : Nat) : 0 < 2 ^ k := pow_pos (by norm_num) k

lemma mem_block {w : Nat} {n : Net} {x : Nat} :
    x ∈ n.block w ↔ n.addr ≤ x ∧ x < n.addr + 2 ^ (w - n.plen) := Finset.mem_Ico

lemma addr_mem_block {w : Nat} (n : Net) : n.addr ∈ n.block w :=
  mem_block.mpr ⟨le_refl _, Nat.lt_add_of_pos_right (two_pow_pos _)⟩

lemma card_block (w : Nat) (n : Net) : (n.block w).card = num_addresses w n := by
  simp [Net.block, Nat.card_Ico, num_addresses]

lemma subnet_of_iff {w : Nat} {a b : Net} :
    subnet_of w a b = true ↔
      b.addr ≤ a.addr ∧ a.addr + 2 ^ (w - a.plen) ≤ b.addr + 2 ^ (w - b.plen) := by
  have h1 : 0 < 2 ^ (w - a.plen) := two_pow_pos _
  have h2 : 0 < 2 ^ (w - b.plen) := two_pow_pos _
  simp only [subnet_of, broadcast_address, num_addresses, Bool.and_eq_true, decide_eq_true_eq]
  omega

lemma subnet_of_iff_subset {w : Nat} {a b : Net} :
    subnet_of w a b = true ↔ a.block w ⊆ b.block w := by
  rw [subnet_of_iff]
  unfold Net.block
  rw [Finset.Ico_subset_Ico_iff (Nat.lt_add_of_pos_right (two_pow_pos _))]

/-- Dyadic nesting: two valid blocks whose ranges intersect are nested, the
one with the longer prefix inside the one with the shorter prefix. -/
lemma block_nested {w : Nat} {a b : Net} (ha : a.Valid w) (hb : b.Valid w)
    (hp : a.plen ≤ b.plen) {x : Nat} (hxa : x ∈ a.block w) (hxb : x ∈ b.block w) :
    b.block w ⊆ a.block w := by
  rw [mem_block] at hxa hxb
  have hsa : 0 < 2 ^ (w - a.plen) := two_pow_pos _
  have hsb : 0 < 2 ^ (w - b.plen) := two_pow_pos _
  have hdvd : (2 ^ (w - b.plen) : Nat) ∣ 2 ^ (w - a.plen) := pow_dvd_pow 2 (by omega)
  have hA : (2 ^ (w - a.plen) : Nat) ∣ a.addr := Nat.dvd_of_mod_eq_zero ha.2
  have hB : (2 ^ (w - b.plen) : Nat) ∣ b.addr := Nat.dvd_of_mod_eq_zero hb.2
  have hAb : (2 ^ (w - b.plen) : Nat) ∣ a.addr := hdvd.trans hA
  have hlow : a.addr ≤ b.addr := by
    by_contra hcon
    push_neg at hcon
    have h2 : (2 ^ (w - b.plen) : Nat) ∣ a.addr - b.addr := Nat.dvd_sub' hAb hB
    have h3 : 2 ^ (w - b.plen) ≤ a.addr - b.addr := Nat.le_of_dvd (by omega) h2
    omega
  have hup : b.addr + 2 ^ (w - b.plen) ≤ a.addr + 2 ^ (w - a.plen) := by
    have h1 : (2 ^ (w - b.plen) : Nat) ∣ a.addr + 2 ^ (w - a.plen) :=
      Nat.dvd_add hAb hdvd
    have h4 : (2 ^ (w - b.plen) : Nat) ∣ a.addr + 2 ^ (w - a.plen) - b.addr :=
      Nat.dvd_sub' h1 hB
    have h6 : 2 ^ (w - b.plen) ≤ a.addr + 2 ^ (w - a.plen) - b.addr :=
      Nat.le_of_dvd (by omega) h4
    omega
  intro y hy
  rw [mem_block] at hy ⊢
  omega

/-- A valid block strictly contained in a valid block has a strictly longer
prefix. -/
lemma plen_lt_of_ssub {w : Nat} {u a : Net} (hu : u.Valid w) (ha : a.Valid w)
    (hsub : u.block w ⊆ a.block w) (hne : u ≠ a) : a.plen < u.plen := by
  have hcard : (u.block w).card ≤ (a.block w).card := Finset.card_le_card hsub
  rw [card_block, card_block] at hcard
  have hple : a.plen ≤ u.plen := by
    simp only [num_addresses] at hcard
    have h2 := (Nat.pow_le_pow_iff_right (by norm_num : 1 < 2)).mp hcard
    have h3 := hu.1
    have h4 := ha.1
    omega
  rcases Nat.lt_or_ge a.plen u.plen with h | h
  · exact h
  · exfalso
    have hpe : u.plen = a.plen := by omega
    unfold Net.block at hsub
    rw [Finset.Ico_subset_Ico_iff (Nat.lt_add_of_pos_right (two_pow_pos _))] at hsub
    rw [hpe] at hsub
    have haddr : u.addr = a.addr := by omega
    exact hne (by cases u; cases a; simp_all)

lemma eq_of_subnet_of_plen_le {w : Nat} {u a : Net} (hu : u.Valid w) (ha : a.Valid w)
    (hsub : subnet_of w u a = true) (hp : u.plen ≤ a.plen) : u = a := by
  by_contra hne
  have := plen_lt_of_ssub hu ha (subnet_of_iff_subset.mp hsub) hne
  omega

/-! ### Unions of blocks -/

/-- Disjointness of the address ranges of two blocks. -/
def NDisj (w : Nat) (a b : Net) : Prop := Disjoint (a.block w) (b.block w)

lemma NDisj.symm {w : Nat} {a b : Net} (h : NDisj w a b) : NDisj w b a :=
  Disjoint.symm h

lemma unionBlocks_nil (w : Nat) : unionBlocks w [] = ∅ := rfl

lemma unionBlocks_cons (w : Nat) (n : Net) (l : List Net) :
    unionBlocks w (n :: l) = n.block w ∪ unionBlocks w l := rfl

lemma unionBlocks_append (w : Nat) (l1 l2 : List Net) :
    unionBlocks w (l1 ++ l2) = unionBlocks w l1 ∪ unionBlocks w l2 := by
  induction l1 with
  | nil => simp [unionBlocks_nil, unionBlocks_cons]
  | cons a l ih =>
    simp only [List.cons_append, unionBlocks_cons, ih, Finset.union_assoc]

lemma mem_unionBlocks {w : Nat} {l : List Net} {x : Nat} :
    x ∈ unionBlocks w l ↔ ∃ n ∈ l, x ∈ n.block w := by
  induction l with
  | nil => simp [unionBlocks_nil]
  | cons a l ih => simp [unionBlocks_cons, ih]

lemma block_subset_unionBlocks {w : Nat} {l : List Net} {b : Net} (h : b ∈ l) :
    b.block w ⊆ unionBlocks w l := by
  intro x hx
  exact mem_unionBlocks.mpr ⟨b, h, hx⟩

lemma disjoint_unionBlocks_right {w : Nat} {s : Finset Nat} {l : List Net} :
    Disjoint s (unionBlocks w l) ↔ ∀ n ∈ l, Disjoint s (n.block w) := by
  induction l with
  | nil => simp [unionBlocks_nil]
  | cons a l ih => simp [unionBlocks_cons, Finset.disjoint_union_right, ih]

lemma unionBlocks_perm {w : Nat} {l1 l2 : List Net} (h : l1.Perm l2) :
    unionBlocks w l1 = unionBlocks w l2 := by
  ext x
  rw [mem_unionBlocks, mem_unionBlocks]
  constructor
  · rintro ⟨n, hn, hx⟩; exact ⟨n, h.mem_iff.mp hn, hx⟩
  · rintro ⟨n, hn, hx⟩; exact ⟨n, h.mem_iff.mpr hn, hx⟩

lemma card_unionBlocks {w : Nat} : ∀ {l : List Net}, l.Pairwise (NDisj w) →
    (unionBlocks w l).card = (l.map (num_addresses w)).sum
  | [], _ => by simp [unionBlocks_nil]
  | a :: l, h => by
    rw [List.pairwise_cons] at h
    have hd : Disjoint (a.block w) (unionBlocks w l) :=
      disjoint_unionBlocks_right.mpr (fun n hn => h.1 n hn)
    rw [unionBlocks_cons, Finset.card_union_of_disjoint hd, card_block,
      card_unionBlocks h.2, List.map_cons, List.sum_cons]

/-! ### Splitting a block in two halves -/

lemma pow_split {w p : Nat} (h : p < w) :
    2 ^ (w - p) = 2 ^ (w - (p + 1)) + 2 ^ (w - (p + 1)) := by
  have he : w - p = (w - (p + 1)) + 1 := by omega
  rw [he, pow_succ]
  omega

lemma subnets_eq {w : Nat} {n : Net} (h : n.plen < w) :
    subnets w n =
      some (⟨n.addr, n.plen + 1⟩, ⟨n.addr + 2 ^ (w - (n.plen + 1)), n.plen + 1⟩) := by
  simp [subnets, h]

lemma half1_valid {w : Nat} {n : Net} (hn : n.Valid w) (h : n.plen < w) :
    Net.Valid w ⟨n.addr, n.plen + 1⟩ := by
  constructor
  · show n.plen + 1 ≤ w
    omega
  · show n.addr % 2 ^ (w - (n.plen + 1)) = 0
    have hdvd : (2 ^ (w - (n.plen + 1)) : Nat) ∣ 2 ^ (w - n.plen) := pow_dvd_pow 2 (by omega)
    exact Nat.mod_eq_zero_of_dvd (hdvd.trans (Nat.dvd_of_mod_eq_zero hn.2))

lemma half2_valid {w : Nat} {n : Net} (hn : n.Valid w) (h : n.plen < w) :
    Net.Valid w ⟨n.addr + 2 ^ (w - (n.plen + 1)), n.plen + 1⟩ := by
  constructor
  · show n.plen + 1 ≤ w
    omega
  · show (n.addr + 2 ^ (w - (n.plen + 1))) % 2 ^ (w - (n.plen + 1)) = 0
    have hdvd : (2 ^ (w - (n.plen + 1)) : Nat) ∣ 2 ^ (w - n.plen) := pow_dvd_pow 2 (by omega)
    exact Nat.mod_eq_zero_of_dvd
      (Nat.dvd_add (hdvd.trans (Nat.dvd_of_mod_eq_zero hn.2)) dvd_rfl)

lemma block_split {w : Nat} {n : Net} (h : n.plen < w) :
    Net.block w ⟨n.addr, n.plen + 1⟩ ∪
        Net.block w ⟨n.addr + 2 ^ (w - (n.plen + 1)), n.plen + 1⟩
      = n.block w := by
  have hs := pow_split h
  have hpos : 0 < 2 ^ (w - (n.plen + 1)) := two_pow_pos _
  unfold Net.block
  dsimp only
  rw [hs]
  rw [← Finset.Ico_union_Ico_eq_Ico
    (a := n.addr) (b := n.addr + 2 ^ (w - (n.plen + 1)))
    (c := n.addr + (2 ^ (w - (n.plen + 1)) + 2 ^ (w - (n.plen + 1))))
    (by omega) (by omega)]
  congr 1
  congr 1
  exact Nat.add_assoc _ _ _

lemma halves_disjoint {w : Nat} (n : Net) :
    NDisj w ⟨n.addr, n.plen + 1⟩ ⟨n.addr + 2 ^ (w - (n.plen + 1)), n.plen + 1⟩ := by
  unfold NDisj Net.block
  dsimp only
  exact Finset.Ico_disjoint_Ico_consecutive _ _ _

/-- The two halves delivered by `subnets` stay inside the original block
(no validity assumptions needed). -/
lemma subnets_subset {w : Nat} {n t1 t2 : Net} (h : subnets w n = some (t1, t2)) :
    t1.block w ∪ t2.block w ⊆ n.block w := by
  unfold subnets at h
  split at h
  · rename_i hlt
    injection h with h
    injection h with h1 h2
    subst h1; subst h2
    have hs := pow_split hlt
    have hpos : 0 < 2 ^ (w - (n.plen + 1)) := two_pow_pos _
    intro x hx
    simp only [Finset.mem_union, mem_block] at hx
    rw [mem_block]
    omega
  · exact absurd h (by simp)

/-! ### Correctness of the exclusion loop -/

/-- Main invariant of the `address_exclude` loop: called on two valid
adjacent sibling halves whose union covers `other`, it succeeds and
returns valid, pairwise disjoint blocks that are disjoint from `other`
and, together with `other`, exactly cover the two halves. -/
lemma exclude_loop_spec (w : Nat) {other : Net} (ho : other.Valid w) :
    ∀ (fuel : Nat) (s1 s2 : Net), s1.Valid w → s2.Valid w →
      s1.plen = s2.plen → s1.plen ≤ other.plen →
      s2.addr = s1.addr + 2 ^ (w - s1.plen) →
      other.block w ⊆ s1.block w ∪ s2.block w →
      other.plen - s1.plen < fuel →
      ∃ l, exclude_loop w other fuel s1 s2 = some l ∧
        (∀ b ∈ l, b.Valid w) ∧
        l.Pairwise (NDisj w) ∧
        (∀ b ∈ l, Disjoint (b.block w) (other.block w)) ∧
        unionBlocks w l ∪ other.block w = s1.block w ∪ s2.block w := by
  intro fuel
  induction fuel with
  | zero => intro s1 s2 _ _ _ _ _ _ hfuel; omega
  | succ fuel ih =>
    intro s1 s2 h1 h2 hpe hpl hadj hcov hfuel
    have hd12 : Disjoint (s1.block w) (s2.block w) := by
      unfold Net.block
      rw [hadj]
      exact Finset.Ico_disjoint_Ico_consecutive _ _ _
    by_cases he1 : s1 = other
    · refine ⟨[s2], ?_, ?_, ?_, ?_, ?_⟩
      · simp [exclude_loop, he1]
      · intro b hb; rw [List.mem_singleton] at hb; subst hb; exact h2
      · exact List.pairwise_singleton _ _
      · intro b hb; rw [List.mem_singleton] at hb; subst hb
        rw [← he1]; exact hd12.symm
      · rw [← he1, unionBlocks_cons, unionBlocks_nil, Finset.union_empty,
          Finset.union_comm]
    by_cases he2 : s2 = other
    · refine ⟨[s1], ?_, ?_, ?_, ?_, ?_⟩
      · simp [exclude_loop, if_neg he1, he2]
      · intro b hb; rw [List.mem_singleton] at hb; subst hb; exact h1
      · exact List.pairwise_singleton _ _
      · intro b hb; rw [List.mem_singleton] at hb; subst hb
        rw [← he2]; exact hd12
      · rw [← he2, unionBlocks_cons, unionBlocks_nil, Finset.union_empty]
    by_cases hs1 : subnet_of w other s1 = true
    · have hsub : other.block w ⊆ s1.block w := subnet_of_iff_subset.mp hs1
      have hlt : s1.plen < other.plen :=
        plen_lt_of_ssub ho h1 hsub (fun hh => he1 hh.symm)
      have hs1w : s1.plen < w := lt_of_lt_of_le hlt ho.1
      have hsn := subnets_eq (w := w) (n := s1) hs1w
      obtain ⟨l, hle, hlv, hlp, hld, hlu⟩ := ih ⟨s1.addr, s1.plen + 1⟩
        ⟨s1.addr + 2 ^ (w - (s1.plen + 1)), s1.plen + 1⟩
        (half1_valid h1 hs1w) (half2_valid h1 hs1w) rfl
        (by show s1.plen + 1 ≤ other.plen; omega)
        rfl
        (by rw [block_split hs1w]; exact hsub)
        (by show other.plen - (s1.plen + 1) < fuel; omega)
      have hbl : ∀ b ∈ l, b.block w ⊆ s1.block w := by
        intro b hb
        have h3 : b.block w ⊆ unionBlocks w l ∪ other.block w :=
          (block_subset_unionBlocks hb).trans Finset.subset_union_left
        rw [hlu, block_split hs1w] at h3
        exact h3
      refine ⟨s2 :: l, ?_, ?_, ?_, ?_, ?_⟩
      · simp only [exclude_loop, if_neg he1, if_neg he2, if_pos hs1, hsn, hle,
          Option.map_some']
      · intro b hb
        rcases List.mem_cons.mp hb with hb | hb
        · subst hb; exact h2
        · exact hlv b hb
      · rw [List.pairwise_cons]
        exact ⟨fun b hb => hd12.symm.mono_right (hbl b hb), hlp⟩
      · intro b hb
        rcases List.mem_cons.mp hb with hb | hb
        · subst hb; exact hd12.symm.mono_right hsub
        · exact hld b hb
      · rw [unionBlocks_cons, Finset.union_assoc, hlu, block_split hs1w,
          Finset.union_comm]
    by_cases hs2 : subnet_of w other s2 = true
    · have hsub : other.block w ⊆ s2.block w := subnet_of_iff_subset.mp hs2
      have hlt : s2.plen < other.plen :=
        plen_lt_of_ssub ho h2 hsub (fun hh => he2 hh.symm)
      have hs2w : s2.plen < w := lt_of_lt_of_le hlt ho.1
      have hsn := subnets_eq (w := w) (n := s2) hs2w
      obtain ⟨l, hle, hlv, hlp, hld, hlu⟩ := ih ⟨s2.addr, s2.plen + 1⟩
        ⟨s2.addr + 2 ^ (w - (s2.plen + 1)), s2.plen + 1⟩
        (half1_valid h2 hs2w) (half2_valid h2 hs2w) rfl
        (by show s2.plen + 1 ≤ other.plen; omega)
        rfl
        (by rw [block_split hs2w]; exact hsub)
        (by show other.plen - (s2.plen + 1) < fuel; omega)
      have hbl : ∀ b ∈ l, b.block w ⊆ s2.block w := by
        intro b hb
        have h3 : b.block w ⊆ unionBlocks w l ∪ other.block w :=
          (block_subset_unionBlocks hb).trans Finset.subset_union_left
        rw [hlu, block_split hs2w] at h3
        exact h3
      refine ⟨s1 :: l, ?_, ?_, ?_, ?_, ?_⟩
      · simp only [exclude_loop, if_neg he1, if_neg he2, if_neg hs1, if_pos hs2,
          hsn, hle, Option.map_some']
      · intro b hb
        rcases List.mem_cons.mp hb with hb | hb
        · subst hb; exact h1
        · exact hlv b hb
      · rw [List.pairwise_cons]
        exact ⟨fun b hb => hd12.mono_right (hbl b hb), hlp⟩
      · intro b hb
        rcases List.mem_cons.mp hb with hb | hb
        · subst hb; exact hd12.mono_right hsub
        · exact hld b hb
      · rw [unionBlocks_cons, Finset.union_assoc, hlu, block_split hs2w]
    · exfalso
      have hx := hcov (addr_mem_block other)
      rw [Finset.mem_union] at hx
      rcases hx with hx | hx
      · exact hs1 (subnet_of_iff_subset.mpr
          (block_nested h1 ho hpl hx (addr_mem_block other)))
      · exact hs2 (subnet_of_iff_subset.mpr
          (block_nested h2 ho (by omega) hx (addr_mem_block other)))

/-- `address_exclude` on valid blocks with `u ⊆ a` succeeds and computes
the exact complement of `u` inside `a` as valid, pairwise disjoint blocks. -/
lemma address_exclude_spec {w : Nat} {a u : Net} (ha : a.Valid w) (hu : u.Valid w)
    (hsub : subnet_of w u a = true) :
    ∃ l, address_exclude w a u = some l ∧
      (∀ b ∈ l, b.Valid w) ∧
      l.Pairwise (NDisj w) ∧
      (∀ b ∈ l, Disjoint (b.block w) (u.block w)) ∧
      unionBlocks w l ∪ u.block w = a.block w := by
  by_cases he : u = a
  · subst he
    refine ⟨[], ?_, by simp, List.Pairwise.nil, by simp, ?_⟩
    · simp [address_exclude, hsub]
    · rw [unionBlocks_nil, Finset.empty_union]
  · have hssub : u.block w ⊆ a.block w := subnet_of_iff_subset.mp hsub
    have hlt : a.plen < u.plen := plen_lt_of_ssub hu ha hssub he
    have haw : a.plen < w := lt_of_lt_of_le hlt hu.1
    have hsn := subnets_eq (w := w) (n := a) haw
    obtain ⟨l, hle, hlv, hlp, hld, hlu⟩ := exclude_loop_spec w hu (w + 1)
      ⟨a.addr, a.plen + 1⟩ ⟨a.addr + 2 ^ (w - (a.plen + 1)), a.plen + 1⟩
      (half1_valid ha haw) (half2_valid ha haw) rfl
      (by show a.plen + 1 ≤ u.plen; omega)
      rfl
      (by rw [block_split haw]; exact hssub)
      (by have h9 := hu.1; show u.plen - (a.plen + 1) < w + 1; omega)
    refine ⟨l, ?_, hlv, hlp, hld, ?_⟩
    · simp only [address_exclude, hsub, if_true, if_neg he, hsn, hle]
    · rw [hlu, block_split haw]

/-! ### The inner loop over the available list -/

/-- When no available block contains `u`, the step keeps the list unchanged
(the silent-skip policy). -/
lemma exclude_step_skip {w : Nat} {u : Net} : ∀ {avail : List Net},
    (∀ a ∈ avail, subnet_of w u a = false) → exclude_step w u avail = some avail
  | [], _ => rfl
  | a :: rest, h => by
    have ha := h a (List.mem_cons_self a rest)
    rw [exclude_step, if_neg (by simp [ha]), exclude_step_skip
      (fun b hb => h b (List.mem_cons_of_mem a hb))]
    rfl

/-- The step on a valid block and a valid, pairwise disjoint available list
always succeeds and preserves validity and pairwise disjointness; every
output block lies inside some input block. -/
lemma exclude_step_spec {w : Nat} {u : Net} (hu : u.Valid w) :
    ∀ {avail : List Net}, (∀ a ∈ avail, a.Valid w) → avail.Pairwise (NDisj w) →
    ∃ l, exclude_step w u avail = some l ∧
      (∀ b ∈ l, b.Valid w) ∧
      l.Pairwise (NDisj w) ∧
      (∀ b ∈ l, ∃ a ∈ avail, b.block w ⊆ a.block w)
  | [], _, _ => ⟨[], rfl, by simp, List.Pairwise.nil, by simp⟩
  | a :: rest, hav, hpd => by
    have ha : a.Valid w := hav a (List.mem_cons_self a rest)
    have hrest : ∀ x ∈ rest, x.Valid w := fun x hx => hav x (List.mem_cons_of_mem a hx)
    rw [List.pairwise_cons] at hpd
    obtain ⟨lr, her, hvr, hpr, hsr⟩ := exclude_step_spec hu hrest hpd.2
    by_cases hsa : subnet_of w u a = true
    · obtain ⟨la, hea, hva, hpa, hda, hua⟩ := address_exclude_spec ha hu hsa
      have hia : ∀ b ∈ la, b.block w ⊆ a.block w := by
        intro b hb
        have h3 : b.block w ⊆ unionBlocks w la ∪ u.block w :=
          (block_subset_unionBlocks hb).trans Finset.subset_union_left
        rw [hua] at h3
        exact h3
      refine ⟨la ++ lr, ?_, ?_, ?_, ?_⟩
      · rw [exclude_step, if_pos hsa, hea, her]
      · intro b hb
        rcases List.mem_append.mp hb with hb | hb
        · exact hva b hb
        · exact hvr b hb
      · rw [List.pairwise_append]
        refine ⟨hpa, hpr, ?_⟩
        intro b1 hb1 b2 hb2
        obtain ⟨a2, ha2, hsub2⟩ := hsr b2 hb2
        exact ((hpd.1 a2 ha2).mono_left (hia b1 hb1)).mono_right hsub2
      · intro b hb
        rcases List.mem_append.mp hb with hb | hb
        · exact ⟨a, List.mem_cons_self a rest, hia b hb⟩
        · obtain ⟨a2, ha2, hsub2⟩ := hsr b hb
          exact ⟨a2, List.mem_cons_of_mem a ha2, hsub2⟩
    · refine ⟨a :: lr, ?_, ?_, ?_, ?_⟩
      · rw [exclude_step, if_neg hsa, her]
        rfl
      · intro b hb
        rcases List.mem_cons.mp hb with hb | hb
        · subst hb; exact ha
        · exact hvr b hb
      · rw [List.pairwise_cons]
        refine ⟨?_, hpr⟩
        intro b hb
        obtain ⟨a2, ha2, hsub2⟩ := hsr b hb
        exact (hpd.1 a2 ha2).mono_right hsub2
      · intro b hb
        rcases List.mem_cons.mp hb with hb | hb
        · exact ⟨a, List.mem_cons_self a rest, by rw [hb]⟩
        · obtain ⟨a2, ha2, hsub2⟩ := hsr b hb
          exact ⟨a2, List.mem_cons_of_mem a ha2, hsub2⟩

lemma not_subnet_of_disjoint {w : Nat} {u a b : Net} (hsub : subnet_of w u a = true)
    (hd : NDisj w a b) : subnet_of w u b = false := by
  by_contra hc
  rw [Bool.not_eq_false] at hc
  have h1 : u.block w ⊆ a.block w := subnet_of_iff_subset.mp hsub
  have h2 : u.block w ⊆ b.block w := subnet_of_iff_subset.mp hc
  exact Finset.disjoint_left.mp hd (h1 (addr_mem_block u)) (h2 (addr_mem_block u))

/-- When some available block does contain `u` (the carving case), one step
removes exactly the range of `u` from the union of the available blocks. -/
lemma exclude_step_carve {w : Nat} {u : Net} (hu : u.Valid w) :
    ∀ {avail : List Net}, (∀ a ∈ avail, a.Valid w) → avail.Pairwise (NDisj w) →
    (∃ a ∈ avail, subnet_of w u a = true) →
    ∃ l, exclude_step w u avail = some l ∧
      Disjoint (unionBlocks w l) (u.block w) ∧
      unionBlocks w l ∪ u.block w = unionBlocks w avail
  | [], _, _, hex => absurd hex (by simp)
  | a :: rest, hav, hpd, hex => by
    have ha : a.Valid w := hav a (List.mem_cons_self a rest)
    have hrest : ∀ x ∈ rest, x.Valid w := fun x hx => hav x (List.mem_cons_of_mem a hx)
    rw [List.pairwise_cons] at hpd
    by_cases hsa : subnet_of w u a = true
    · obtain ⟨la, hea, hva, hpa, hda, hua⟩ := address_exclude_spec ha hu hsa
      have hsubua : u.block w ⊆ a.block w := subnet_of_iff_subset.mp hsa
      have hskip : ∀ b ∈ rest, subnet_of w u b = false :=
        fun b hb => not_subnet_of_disjoint hsa (hpd.1 b hb)
      refine ⟨la ++ rest, ?_, ?_, ?_⟩
      · rw [exclude_step, if_pos hsa, hea, exclude_step_skip hskip]
      · rw [unionBlocks_append, Finset.disjoint_union_left]
        constructor
        · exact (disjoint_unionBlocks_right.mpr (fun b hb => (hda b hb).symm)).symm
        · exact (disjoint_unionBlocks_right.mpr
            (fun b hb => (hpd.1 b hb).mono_left hsubua)).symm
      · rw [unionBlocks_append, Finset.union_right_comm, hua, ← unionBlocks_cons]
    · have hex' : ∃ x ∈ rest, subnet_of w u x = true := by
        rcases hex with ⟨x, hx, hxs⟩
        rcases List.mem_cons.mp hx with h | h
        · exact absurd (h ▸ hxs) hsa
        · exact ⟨x, h, hxs⟩
      obtain ⟨lr, her, hdr, hur⟩ := exclude_step_carve hu hrest hpd.2 hex'
      obtain ⟨a0, ha0, ha0s⟩ := hex'
      have hdau : Disjoint (a.block w) (u.block w) :=
        (hpd.1 a0 ha0).mono_right (subnet_of_iff_subset.mp ha0s)
      refine ⟨a :: lr, ?_, ?_, ?_⟩
      · rw [exclude_step, if_neg hsa, her]
        rfl
      · rw [unionBlocks_cons, Finset.disjoint_union_left]
        exact ⟨hdau, hdr⟩
      · rw [unionBlocks_cons, Finset.union_assoc, hur, ← unionBlocks_cons]

/-! ### The outer loop over the used list -/

/-- On valid inputs the whole run succeeds, and the final working set is
made of valid, pairwise disjoint blocks, each inside some initial block. -/
lemma exclude_all_spec {w : Nat} : ∀ (us : List Net) {avail : List Net},
    (∀ u ∈ us, u.Valid w) → (∀ a ∈ avail, a.Valid w) → avail.Pairwise (NDisj w) →
    ∃ l, exclude_all w avail us = some l ∧
      (∀ b ∈ l, b.Valid w) ∧ l.Pairwise (NDisj w) ∧
      (∀ b ∈ l, ∃ a ∈ avail, b.block w ⊆ a.block w)
  | [], avail, _, hav, hpd => ⟨avail, rfl, hav, hpd, fun b hb => ⟨b, hb, subset_rfl⟩⟩
  | u :: rest, avail, hus, hav, hpd => by
    obtain ⟨l1, he1, hv1, hp1, hs1⟩ :=
      exclude_step_spec (hus u (List.mem_cons_self u rest)) hav hpd
    obtain ⟨l2, he2, hv2, hp2, hs2⟩ := exclude_all_spec rest
      (fun v hv => hus v (List.mem_cons_of_mem u hv)) hv1 hp1
    refine ⟨l2, ?_, hv2, hp2, ?_⟩
    · simp only [exclude_all, he1, he2]
    · intro b hb
      obtain ⟨a1, ha1, hsb1⟩ := hs2 b hb
      obtain ⟨a0, ha0, hsb0⟩ := hs1 a1 ha1
      exact ⟨a0, ha0, hsb1.trans hsb0⟩

/-- Exact-cover run: when along the run every used block is contained in
some current working block, the final free blocks plus the used blocks
partition the initial available range, and the used blocks are pairwise
disjoint. -/
lemma exclude_all_carve {w : Nat} : ∀ (us : List Net) {avail : List Net},
    (∀ u ∈ us, u.Valid w) → (∀ a ∈ avail, a.Valid w) → avail.Pairwise (NDisj w) →
    run_contained w avail us = true →
    ∃ l, exclude_all w avail us = some l ∧
      unionBlocks w l ∪ unionBlocks w us = unionBlocks w avail ∧
      Disjoint (unionBlocks w l) (unionBlocks w us) ∧
      us.Pairwise (NDisj w) ∧
      unionBlocks w us ⊆ unionBlocks w avail
  | [], avail, _, _, _, _ =>
    ⟨avail, rfl, by simp [unionBlocks_nil], by simp [unionBlocks_nil],
      List.Pairwise.nil, by simp [unionBlocks_nil]⟩
  | u :: rest, avail, hus, hav, hpd, hrun => by
    rw [run_contained, Bool.and_eq_true] at hrun
    obtain ⟨hany, hrun2⟩ := hrun
    rw [List.any_eq_true] at hany
    have hex : ∃ a ∈ avail, subnet_of w u a = true := hany
    have huv : u.Valid w := hus u (List.mem_cons_self u rest)
    obtain ⟨l1, he1, hd1, hu1⟩ := exclude_step_carve huv hav hpd hex
    obtain ⟨l1', he1', hv1, hp1, -⟩ := exclude_step_spec huv hav hpd
    rw [he1] at he1'
    injection he1' with he1'
    subst he1'
    simp only [he1] at hrun2
    obtain ⟨l2, he2, hu2, hd2, hp2, hs2⟩ := exclude_all_carve rest
      (fun v hv => hus v (List.mem_cons_of_mem u hv)) hv1 hp1 hrun2
    refine ⟨l2, ?_, ?_, ?_, ?_, ?_⟩
    · simp only [exclude_all, he1, he2]
    · rw [unionBlocks_cons, Finset.union_comm (Net.block w u), ← Finset.union_assoc,
        hu2, hu1]
    · rw [unionBlocks_cons, Finset.disjoint_union_right]
      refine ⟨hd1.mono_left ?_, hd2⟩
      rw [← hu2]
      exact Finset.subset_union_left
    · rw [List.pairwise_cons]
      refine ⟨?_, hp2⟩
      intro r hr
      exact hd1.symm.mono_right ((block_subset_unionBlocks hr).trans hs2)
    · rw [unionBlocks_cons]
      apply Finset.union_subset
      · rw [← hu1]
        exact Finset.subset_union_right
      · intro x hx
        rw [← hu1]
        exact Finset.mem_union_left _ (hs2 hx)

/-! ### The sort comparison on blocks -/

lemma usedLE_trans : ∀ (a b c : Net), usedLE a b → usedLE b c → usedLE a c := by
  intro a b c h1 h2
  simp only [usedLE, Bool.or_eq_true, Bool.and_eq_true, decide_eq_true_eq] at h1 h2 ⊢
  omega

lemma usedLE_total : ∀ (a b : Net), usedLE a b || usedLE b a := by
  intro a b
  simp only [usedLE, Bool.or_eq_true, Bool.and_eq_true, decide_eq_true_eq]
  omega

lemma usedLE_antisymm {a b : Net} (h1 : usedLE a b = true) (h2 : usedLE b a = true) :
    a = b := by
  simp only [usedLE, Bool.or_eq_true, Bool.and_eq_true, decide_eq_true_eq] at h1 h2
  have ha : a.addr = b.addr ∧ a.plen = b.plen := by omega
  cases a; cases b
  simp_all

lemma NDisj.ne {w : Nat} {a b : Net} (h : NDisj w a b) : a ≠ b := by
  intro he
  subst he
  have h1 := disjoint_self.mp h
  have hm := addr_mem_block (w := w) a
  rw [Finset.bot_eq_empty] at h1
  rw [h1] at hm
  exact absurd hm (Finset.not_mem_empty _)

/-- C1: whenever every occupied block, at the moment it is processed in
ascending (address, prefix) order, is fully contained in some block of the
current working set, `find_unused_subnets` succeeds and returns pairwise
disjoint free blocks whose union, together with the union of the occupied
blocks, is exactly the range of the parent — no gaps, no overlaps, no
double counting — and the sizes of the free blocks plus the sizes of the
(necessarily distinct) occupied blocks sum to the size of the parent. -/
theorem find_unused_subnets_exact_cover (w : Nat) (P : Net) (used : List Net)
    (hP : P.Valid w) (hused : ∀ u ∈ used, u.Valid w)
    (hrun : run_contained w [P] (used.mergeSort usedLE) = true) :
    ∃ free, find_unused_subnets w P used = some free ∧
      free.Pairwise (NDisj w) ∧
      Disjoint (unionBlocks w free) (unionBlocks w used) ∧
      unionBlocks w free ∪ unionBlocks w used = P.block w ∧
      used.Nodup ∧
      (free.map (num_addresses w)).sum + (used.map (num_addresses w)).sum
        = num_addresses w P := by
  set S := used.mergeSort usedLE with hSdef
  have hperm : S.Perm used := List.mergeSort_perm used usedLE
  have hSv : ∀ u ∈ S, u.Valid w := fun u hu => hused u (hperm.mem_iff.mp hu)
  have hPv : ∀ a ∈ [P], a.Valid w := by
    intro a ha; rw [List.mem_singleton] at ha; subst ha; exact hP
  have hPp : ([P] : List Net).Pairwise (NDisj w) := List.pairwise_singleton _ _
  obtain ⟨l, he, huni, hd, hpS, hsS⟩ := exclude_all_carve S hSv hPv hPp hrun
  obtain ⟨l', he', hv, hp, -⟩ := exclude_all_spec S hSv hPv hPp
  rw [he] at he'
  injection he' with he'
  subst he'
  have hUS : unionBlocks w S = unionBlocks w used := unionBlocks_perm hperm
  have hUP : unionBlocks w [P] = P.block w := by
    rw [unionBlocks_cons, unionBlocks_nil, Finset.union_empty]
  have ndS : S.Nodup := hpS.imp NDisj.ne
  refine ⟨l, he, hp, ?_, ?_, ?_, ?_⟩
  · rw [← hUS]; exact hd
  · rw [← hUS, huni, hUP]
  · exact hperm.nodup_iff.mp ndS
  · have hfcard := card_unionBlocks hp
    have hscard := card_unionBlocks hpS
    have hsum : (S.map (num_addresses w)).sum = (used.map (num_addresses w)).sum :=
      (hperm.map (num_addresses w)).sum_eq
    have hc : (unionBlocks w l ∪ unionBlocks w S).card
        = (l.map (num_addresses w)).sum + (S.map (num_addresses w)).sum := by
      rw [Finset.card_union_of_disjoint hd, hfcard, hscard]
    rw [huni, hUP, card_block] at hc
    rw [← hsum]
    omega

/-- Witness for `find_unused_subnets_exact_cover`: width 1, parent `0/0`,
occupied list `[0/1]` (the lower half). -/
theorem find_unused_subnets_exact_cover_witness :
    ∃ free, find_unused_subnets 1 ⟨0, 0⟩ [⟨0, 1⟩] = some free ∧
      free.Pairwise (NDisj 1) ∧
      Disjoint (unionBlocks 1 free) (unionBlocks 1 [⟨0, 1⟩]) ∧
      unionBlocks 1 free ∪ unionBlocks 1 [⟨0, 1⟩] = Net.block 1 ⟨0, 0⟩ ∧
      ([(⟨0, 1⟩ : Net)] : List Net).Nodup ∧
      (free.map (num_addresses 1)).sum + ([(⟨0, 1⟩ : Net)].map (num_addresses 1)).sum
        = num_addresses 1 ⟨0, 0⟩ :=
  find_unused_subnets_exact_cover 1 ⟨0, 0⟩ [⟨0, 1⟩] (by decide)
    (by intro u hu; rw [List.mem_singleton] at hu; subst hu; decide)
    (by rw [List.mergeSort_singleton]; decide)

/-! ### Containment in the parent, with no validity assumptions -/

lemma exclude_loop_subset {w : Nat} {other : Net} :
    ∀ {fuel : Nat} {s1 s2 : Net} {l : List Net},
      exclude_loop w other fuel s1 s2 = some l →
      ∀ b ∈ l, b.block w ⊆ s1.block w ∪ s2.block w := by
  intro fuel
  induction fuel with
  | zero => intro s1 s2 l h; exact absurd h (by simp [exclude_loop])
  | succ fuel ih =>
    intro s1 s2 l h b hb
    simp only [exclude_loop] at h
    split at h
    · injection h with h
      subst h
      rw [List.mem_singleton] at hb
      subst hb
      exact Finset.subset_union_right
    · split at h
      · injection h with h
        subst h
        rw [List.mem_singleton] at hb
        subst hb
        exact Finset.subset_union_left
      · split at h
        · split at h
          · exact absurd h (by simp)
          · rename_i t1 t2 heq
            cases hrec : exclude_loop w other fuel t1 t2 with
            | none => rw [hrec] at h; exact absurd h (by simp)
            | some l' =>
              rw [hrec, Option.map_some'] at h
              injection h with h
              subst h
              rcases List.mem_cons.mp hb with hb | hb
              · subst hb
                exact Finset.subset_union_right
              · refine ((ih hrec b hb).trans ?_).trans Finset.subset_union_left
                exact subnets_subset heq
        · split at h
          · split at h
            · exact absurd h (by simp)
            · rename_i t1 t2 heq
              cases hrec : exclude_loop w other fuel t1 t2 with
              | none => rw [hrec] at h; exact absurd h (by simp)
              | some l' =>
                rw [hrec, Option.map_some'] at h
                injection h with h
                subst h
                rcases List.mem_cons.mp hb with hb | hb
                · subst hb
                  exact Finset.subset_union_left
                · refine ((ih hrec b hb).trans ?_).trans Finset.subset_union_right
                  exact subnets_subset heq
          · exact absurd h (by simp)

lemma address_exclude_subset {w : Nat} {a u : Net} {l : List Net}
    (h : address_exclude w a u = some l) : ∀ b ∈ l, b.block w ⊆ a.block w := by
  unfold address_exclude at h
  split at h
  · split at h
    · injection h with h
      subst h
      intro b hb
      exact absurd hb (List.not_mem_nil b)
    · split at h
      · exact absurd h (by simp)
      · rename_i s1 s2 heq
        intro b hb
        exact (exclude_loop_subset h b hb).trans (subnets_subset heq)
  · exact absurd h (by simp)

lemma exclude_step_subset {w : Nat} {u : Net} :
    ∀ {avail l : List Net}, exclude_step w u avail = some l →
      ∀ b ∈ l, ∃ a ∈ avail, b.block w ⊆ a.block w
  | [], l, h => by
    injection h with h
    subst h
    intro b hb
    exact absurd hb (List.not_mem_nil b)
  | a :: rest, l, h => by
    simp only [exclude_step] at h
    cases hhd : (if subnet_of w u a then address_exclude w a u else some [a]) with
    | none => rw [hhd] at h; exact absurd h (by simp)
    | some hd =>
      cases htl : exclude_step w u rest with
      | none =>
        simp only [hhd, htl] at h
        exact absurd h (by simp)
      | some tl =>
        simp only [hhd, htl, Option.some.injEq] at h
        subst h
        intro b hb
        rcases List.mem_append.mp hb with hb | hb
        · by_cases hs : subnet_of w u a = true
          · rw [if_pos hs] at hhd
            exact ⟨a, List.mem_cons_self a rest, address_exclude_subset hhd b hb⟩
          · rw [if_neg hs] at hhd
            injection hhd with hhd
            subst hhd
            rw [List.mem_singleton] at hb
            exact ⟨a, List.mem_cons_self a rest, by rw [hb]⟩
        · obtain ⟨a2, ha2, hs2⟩ := exclude_step_subset htl b hb
          exact ⟨a2, List.mem_cons_of_mem a ha2, hs2⟩

lemma exclude_all_subset {w : Nat} :
    ∀ {us avail l : List Net}, exclude_all w avail us = some l →
      ∀ b ∈ l, ∃ a ∈ avail, b.block w ⊆ a.block w
  | [], avail, l, h => by
    injection h with h
    subst h
    exact fun b hb => ⟨b, hb, subset_rfl⟩
  | u :: rest, avail, l, h => by
    simp only [exclude_all] at h
    cases hstep : exclude_step w u avail with
    | none => rw [hstep] at h; exact absurd h (by simp)
    | some a2 =>
      simp only [hstep] at h
      intro b hb
      obtain ⟨a1, ha1, hs1⟩ := exclude_all_subset h b hb
      obtain ⟨a0, ha0, hs0⟩ := exclude_step_subset hstep a1 ha1
      exact ⟨a0, ha0, hs1.trans hs0⟩

/-- C10: containment in the parent is an unconditional invariant of the
engine — with no validity, well-formedness or disjointness assumption on
the occupied blocks (duplicated, overlapping or skipped ones included):
any successful step keeps every working-set block a subnet of the parent,
and every block returned by `find_unused_subnets` is a subnet of the
parent. -/
theorem find_unused_subnets_subset_parent (w : Nat) (P : Net) :
    (∀ used free, find_unused_subnets w P used = some free →
       ∀ b ∈ free, subnet_of w b P = true) ∧
    (∀ u avail res, (∀ a ∈ avail, subnet_of w a P = true) →
       exclude_step w u avail = some res →
       ∀ b ∈ res, subnet_of w b P = true) := by
  constructor
  · intro used free h b hb
    obtain ⟨a, ha, hs⟩ := exclude_all_subset h b hb
    rw [List.mem_singleton] at ha
    subst ha
    exact subnet_of_iff_subset.mpr hs
  · intro u avail res hav h b hb
    obtain ⟨a, ha, hs⟩ := exclude_step_subset h b hb
    exact subnet_of_iff_subset.mpr (hs.trans (subnet_of_iff_subset.mp (hav a ha)))

/-- Witness for `find_unused_subnets_subset_parent`: the empty occupied
list on width 1 returns the parent itself, which is a subnet of itself. -/
theorem find_unused_subnets_subset_parent_witness :
    subnet_of 1 ⟨0, 0⟩ ⟨0, 0⟩ = true :=
  (find_unused_subnets_subset_parent 1 ⟨0, 0⟩).1 [] [⟨0, 0⟩]
    (by show exclude_all 1 [⟨0, 0⟩] (List.mergeSort [] usedLE) = some [⟨0, 0⟩]
        rw [List.mergeSort_nil]
        rfl)
    ⟨0, 0⟩ (List.mem_singleton.mpr rfl)

/-- C2: an occupied block not fully contained in any block of the working
set is skipped without error and contributes no exclusion (every
available block is kept unchanged), and on valid input the run as a whole
never fails. -/
theorem find_unused_subnets_skips_uncontained (w : Nat) (P : Net) (used : List Net)
    (hP : P.Valid w) (hused : ∀ u ∈ used, u.Valid w) :
    (find_unused_subnets w P used).isSome = true ∧
    ∀ (u : Net) (avail : List Net), (∀ a ∈ avail, subnet_of w u a = false) →
      exclude_step w u avail = some avail := by
  constructor
  · have hSv : ∀ u ∈ used.mergeSort usedLE, u.Valid w := fun u hu =>
      hused u ((List.mergeSort_perm used usedLE).mem_iff.mp hu)
    have hPv : ∀ a ∈ [P], a.Valid w := by
      intro a ha; rw [List.mem_singleton] at ha; subst ha; exact hP
    obtain ⟨l, he, -, -, -⟩ := exclude_all_spec (used.mergeSort usedLE) hSv hPv
      (List.pairwise_singleton _ _)
    show (exclude_all w [P] (used.mergeSort usedLE)).isSome = true
    rw [he]
    rfl
  · intro u avail h
    exact exclude_step_skip h

/-- Witness for `find_unused_subnets_skips_uncontained`. -/
theorem find_unused_subnets_skips_uncontained_witness :
    (find_unused_subnets 1 ⟨0, 0⟩ []).isSome = true ∧
    ∀ (u : Net) (avail : List Net), (∀ a ∈ avail, subnet_of 1 u a = false) →
      exclude_step 1 u avail = some avail :=
  find_unused_subnets_skips_uncontained 1 ⟨0, 0⟩ [] (by decide)
    (by intro u hu; exact absurd hu (List.not_mem_nil u))

/-- C4: every block returned by `find_unused_subnets` is validly aligned:
its network address is an exact multiple of its block size
`2 ^ (w - plen)` (no host bits set). -/
theorem find_unused_subnets_aligned (w : Nat) (P : Net) (used free : List Net)
    (hP : P.Valid w) (hused : ∀ u ∈ used, u.Valid w)
    (h : find_unused_subnets w P used = some free) :
    ∀ b ∈ free, 2 ^ (w - b.plen) ∣ b.addr := by
  have hSv : ∀ u ∈ used.mergeSort usedLE, u.Valid w := fun u hu =>
    hused u ((List.mergeSort_perm used usedLE).mem_iff.mp hu)
  have hPv : ∀ a ∈ [P], a.Valid w := by
    intro a ha; rw [List.mem_singleton] at ha; subst ha; exact hP
  obtain ⟨l, he, hv, -, -⟩ := exclude_all_spec (used.mergeSort usedLE) hSv hPv
    (List.pairwise_singleton _ _)
  have hlf : l = free := by
    have h' : exclude_all w [P] (used.mergeSort usedLE) = some free := h
    rw [he] at h'
    injection h'
  subst hlf
  intro b hb
  exact Nat.dvd_of_mod_eq_zero (hv b hb).2

/-- Witness for `find_unused_subnets_aligned`. -/
theorem find_unused_subnets_aligned_witness :
    2 ^ (1 - (⟨0, 0⟩ : Net).plen) ∣ (⟨0, 0⟩ : Net).addr :=
  find_unused_subnets_aligned 1 ⟨0, 0⟩ [] [⟨0, 0⟩] (by decide)
    (by intro u hu; exact absurd hu (List.not_mem_nil u))
    (by show exclude_all 1 [⟨0, 0⟩] (List.mergeSort [] usedLE) = some [⟨0, 0⟩]
        rw [List.mergeSort_nil]
        rfl)
    ⟨0, 0⟩ (List.mem_singleton.mpr rfl)

/-- C9: `find_unused_subnets` depends only on the multiset of occupied
blocks, not on the order they are supplied: permuting the input collection
leaves the returned free-block list unchanged (including its order),
because the engine first sorts the occupied blocks by
(network address, prefix length). -/
theorem find_unused_subnets_perm_invariant (w : Nat) (P : Net) (l₁ l₂ : List Net)
    (h : l₁.Perm l₂) :
    find_unused_subnets w P l₁ = find_unused_subnets w P l₂ := by
  unfold find_unused_subnets
  congr 1
  exact @List.Perm.eq_of_sorted Net (fun a b => usedLE a b = true) _ _
    (fun a b _ _ hab hba => usedLE_antisymm hab hba)
    (List.sorted_mergeSort usedLE_trans usedLE_total l₁)
    (List.sorted_mergeSort usedLE_trans usedLE_total l₂)
    ((List.mergeSort_perm l₁ usedLE).trans
      (h.trans (List.mergeSort_perm l₂ usedLE).symm))

/-- Witness for `find_unused_subnets_perm_invariant`: the two orders of a
two-element occupied set. -/
theorem find_unused_subnets_perm_invariant_witness :
    find_unused_subnets 1 ⟨0, 0⟩ [⟨0, 1⟩, ⟨1, 1⟩]
      = find_unused_subnets 1 ⟨0, 0⟩ [⟨1, 1⟩, ⟨0, 1⟩] :=
  find_unused_subnets_perm_invariant 1 ⟨0, 0⟩ [⟨0, 1⟩, ⟨1, 1⟩] [⟨1, 1⟩, ⟨0, 1⟩]
    (List.Perm.swap (⟨1, 1⟩ : Net) (⟨0, 1⟩ : Net) [])

/-- C8: concrete scenarios on the parent `10.0.0.0/24` (address
`167772160`): occupied `{10.0.0.0/26, 10.0.0.128/25}` leaves exactly
`10.0.0.64/26` (address `167772224`); an empty occupied set leaves the
whole parent; occupying the parent itself leaves nothing. -/
theorem find_unused_subnets_scenarios :
    find_unused_subnets 32 ⟨167772160, 24⟩ [⟨167772160, 26⟩, ⟨167772288, 25⟩]
        = some [⟨167772224, 26⟩] ∧
    find_unused_subnets 32 ⟨167772160, 24⟩ [] = some [⟨167772160, 24⟩] ∧
    find_unused_subnets 32 ⟨167772160, 24⟩ [⟨167772160, 24⟩] = some [] := by
  refine ⟨?_, ?_, ?_⟩
  · show exclude_all 32 [⟨167772160, 24⟩]
        (List.mergeSort [⟨167772160, 26⟩, ⟨167772288, 25⟩] usedLE)
      = some [⟨167772224, 26⟩]
    rw [List.mergeSort_of_sorted (by decide)]
    decide
  · show exclude_all 32 [⟨167772160, 24⟩] (List.mergeSort [] usedLE)
        = some [⟨167772160, 24⟩]
    rw [List.mergeSort_nil]
    rfl
  · show exclude_all 32 [⟨167772160, 24⟩] (List.mergeSort [⟨167772160, 24⟩] usedLE)
        = some []
    rw [List.mergeSort_singleton]
    decide

/-! ### Idempotence of exclusion -/

lemma exclude_all_append {w : Nat} :
    ∀ (xs ys avail : List Net),
      exclude_all w avail (xs ++ ys) =
        match exclude_all w avail xs with
        | none => none
        | some a2 => exclude_all w a2 ys
  | [], ys, avail => rfl
  | x :: rest, ys, avail => by
    simp only [List.cons_append, exclude_all]
    cases hstep : exclude_step w x avail with
    | none => simp only
    | some a2 => exact exclude_all_append rest ys a2

/-- Excluding the same block from the working set a second time is a
no-op: after the first step its range (if it was carved at all) is gone,
so no remaining block contains it and it is skipped. -/
lemma exclude_step_idem {w : Nat} {u : Net} {avail avail2 : List Net} (hu : u.Valid w)
    (hav : ∀ a ∈ avail, a.Valid w) (hpd : avail.Pairwise (NDisj w))
    (h : exclude_step w u avail = some avail2) :
    exclude_step w u avail2 = some avail2 := by
  by_cases hex : ∃ a ∈ avail, subnet_of w u a = true
  · obtain ⟨l, hl, hdisj, -⟩ := exclude_step_carve hu hav hpd hex
    rw [h] at hl
    injection hl with hl
    subst hl
    apply exclude_step_skip
    intro a ha
    by_contra hc
    rw [Bool.not_eq_false] at hc
    have hsub : u.block w ⊆ a.block w := subnet_of_iff_subset.mp hc
    have h1 : u.addr ∈ unionBlocks w avail2 :=
      block_subset_unionBlocks ha (hsub (addr_mem_block u))
    exact Finset.disjoint_left.mp hdisj h1 (addr_mem_block u)
  · push_neg at hex
    have hskip : ∀ a ∈ avail, subnet_of w u a = false := by
      intro a ha
      simpa using hex a ha
    rw [exclude_step_skip hskip] at h
    injection h with h
    subst h
    exact exclude_step_skip hskip

/-- C3: excluding the same occupied block twice is idempotent: for a
collection `C` containing `u`, appending a duplicate of `u` leaves the
free blocks returned by `find_unused_subnets` unchanged. -/
theorem find_unused_subnets_idem (w : Nat) (P : Net) (C : List Net) (u : Net)
    (hP : P.Valid w) (hC : ∀ v ∈ C, v.Valid w) (hu : u ∈ C) :
    find_unused_subnets w P (C ++ [u]) = find_unused_subnets w P C := by
  have hperm : (C.mergeSort usedLE).Perm C := List.mergeSort_perm C usedLE
  have huS : u ∈ C.mergeSort usedLE := List.mem_mergeSort.mpr hu
  obtain ⟨l₁, l₂, hsplit⟩ := List.append_of_mem huS
  have hpw : (C.mergeSort usedLE).Pairwise (fun a b => usedLE a b = true) :=
    List.sorted_mergeSort usedLE_trans usedLE_total C
  have hrefl : usedLE u u = true := by simp [usedLE]
  have hkey : (C ++ [u]).mergeSort usedLE = l₁ ++ u :: u :: l₂ := by
    refine @List.Perm.eq_of_sorted Net (fun a b => usedLE a b = true) _ _
      (fun a b _ _ h1 h2 => usedLE_antisymm h1 h2)
      (List.sorted_mergeSort usedLE_trans usedLE_total _) ?_ ?_
    · have h0 := hpw
      rw [hsplit, List.pairwise_append, List.pairwise_cons] at h0
      obtain ⟨hl₁, ⟨hul₂, hpl₂⟩, hcross⟩ := h0
      rw [List.pairwise_append, List.pairwise_cons, List.pairwise_cons]
      refine ⟨hl₁, ⟨?_, hul₂, hpl₂⟩, ?_⟩
      · intro b hb
        rcases List.mem_cons.mp hb with hb | hb
        · subst hb; exact hrefl
        · exact hul₂ b hb
      · intro a ha b hb
        rcases List.mem_cons.mp hb with hb | hb
        · rw [hb]; exact hcross a ha u (List.mem_cons_self u l₂)
        · exact hcross a ha b hb
    · refine (List.mergeSort_perm (C ++ [u]) usedLE).trans ?_
      have h1 : (C ++ [u]).Perm (u :: C) := List.perm_append_singleton u C
      have h2 : C.Perm (l₁ ++ u :: l₂) := hsplit ▸ hperm.symm
      exact h1.trans ((h2.cons u).trans List.perm_middle.symm)
  show exclude_all w [P] ((C ++ [u]).mergeSort usedLE)
      = exclude_all w [P] (C.mergeSort usedLE)
  rw [hkey, hsplit]
  rw [exclude_all_append, exclude_all_append]
  cases hLa : exclude_all w [P] l₁ with
  | none => simp only
  | some avail1 =>
    simp only
    have hl₁v : ∀ v ∈ l₁, v.Valid w := by
      intro v hv
      apply hC
      apply hperm.mem_iff.mp
      rw [hsplit]
      exact List.mem_append_left _ hv
    have hPv : ∀ a ∈ [P], a.Valid w := by
      intro a ha; rw [List.mem_singleton] at ha; subst ha; exact hP
    obtain ⟨l1', he1', hv1, hp1, -⟩ := exclude_all_spec l₁ hl₁v hPv
      (List.pairwise_singleton _ _)
    rw [hLa] at he1'
    injection he1' with he1'
    subst he1'
    simp only [exclude_all]
    cases hstep : exclude_step w u avail1 with
    | none => simp only
    | some avail2 =>
      simp only
      simp only [exclude_all, exclude_step_idem (hC u hu) hv1 hp1 hstep]

/-- Witness for `find_unused_subnets_idem`. -/
theorem find_unused_subnets_idem_witness :
    find_unused_subnets 1 ⟨0, 0⟩ ([⟨0, 1⟩] ++ [⟨0, 1⟩])
      = find_unused_subnets 1 ⟨0, 0⟩ [⟨0, 1⟩] :=
  find_unused_subnets_idem 1 ⟨0, 0⟩ [⟨0, 1⟩] ⟨0, 1⟩ (by decide)
    (by intro v hv; rw [List.mem_singleton] at hv; subst hv; decide)
    (List.mem_singleton.mpr rfl)

/-! ### The pie-chart aggregate -/

lemma foldl_add_eq_sum {α : Type} (f : α → Nat) :
    ∀ (l : List α) (acc : Nat), l.foldl (fun s r => s + f r) acc = acc + (l.map f).sum
  | [], acc => by simp
  | a :: l, acc => by
    simp only [List.foldl_cons, List.map_cons, List.sum_cons]
    rw [foldl_add_eq_sum f l (acc + f a)]
    omega

/-- C5: for every parent in the list, the entry `get_pie_data` produces for
it has `Allocated` equal to the sum over its `Used` rows of
`2 ^ (addressWidth - prefixLength)` and `Unallocated` equal to
`max(total - Allocated, 0)`; in particular `Unallocated` is never
negative, even when overlapping `Used` rows double-count addresses. -/
theorem get_pie_data_spec (w : Nat) (user_cidrs : List Net)
    (cidr_data : Net → List PRow) (parent : Net) (hmem : parent ∈ user_cidrs) :
    ∃ e ∈ get_pie_data w user_cidrs cidr_data,
      e.allocated = (((cidr_data parent).filter (fun r => r.status == "Used")).map
          (fun r => 2 ^ (w - r.plen))).sum ∧
      e.unallocated = max ((2 ^ (w - parent.plen) : Int) - (e.allocated : Int)) 0 ∧
      0 ≤ e.unallocated := by
  have hval : used_ips w (cidr_data parent)
      = (((cidr_data parent).filter (fun r => r.status == "Used")).map
          (fun r => 2 ^ (w - r.plen))).sum := by
    unfold used_ips
    rw [foldl_add_eq_sum (fun r : PRow => 2 ^ (w - r.plen))]
    exact Nat.zero_add _
  refine ⟨⟨used_ips w (cidr_data parent),
      max ((num_addresses w parent : Int) - (used_ips w (cidr_data parent) : Int)) 0⟩,
    List.mem_map_of_mem _ hmem, hval, ?_, le_max_right _ _⟩
  show max ((num_addresses w parent : Int) - (used_ips w (cidr_data parent) : Int)) 0
      = max ((2 ^ (w - parent.plen) : Int) - (used_ips w (cidr_data parent) : Int)) 0
  have hcast : ((num_addresses w parent : Nat) : Int) = (2 ^ (w - parent.plen) : Int) := by
    unfold num_addresses
    push_cast
    rfl
  rw [hcast]

/-- Witness for `get_pie_data_spec`: one parent, no rows. -/
theorem get_pie_data_spec_witness :
    ∃ e ∈ get_pie_data 1 [⟨0, 0⟩] (fun _ => []),
      e.allocated = ((([] : List PRow).filter (fun r => r.status == "Used")).map
          (fun r => 2 ^ (1 - r.plen))).sum ∧
      e.unallocated = max ((2 ^ (1 - (⟨0, 0⟩ : Net).plen) : Int) - (e.allocated : Int)) 0 ∧
      0 ≤ e.unallocated :=
  get_pie_data_spec 1 [⟨0, 0⟩] (fun _ => []) ⟨0, 0⟩ (List.mem_singleton.mpr rfl)

/-! ### The Normalizer -/

lemma optLT_trans {a b c : Option Nat} (h1 : optLT a b = true) (h2 : optLT b c = true) :
    optLT a c = true := by
  cases a <;> cases b <;> cases c <;> simp [optLT] at * <;> omega

lemma optLT_connex {a b : Option Nat} (h1 : optLT a b = false) (h2 : optLT b a = false) :
    a = b := by
  cases a <;> cases b <;> simp [optLT] at * <;> omega

lemma rowLE_trans : ∀ (a b c : IRow), rowLE a b → rowLE b c → rowLE a c := by
  intro a b c h1 h2
  simp only [rowLE, Bool.or_eq_true, Bool.and_eq_true, decide_eq_true_eq] at h1 h2 ⊢
  rcases h1 with h1 | ⟨he1, h1'⟩
  · rcases h2 with h2 | ⟨he2, h2'⟩
    · exact Or.inl (optLT_trans h1 h2)
    · rw [← he2]
      exact Or.inl h1
  · rcases h2 with h2 | ⟨he2, h2'⟩
    · rw [he1]
      exact Or.inl h2
    · refine Or.inr ⟨he1.trans he2, ?_⟩
      rcases h1' with h1' | ⟨hp1, hs1⟩
      · rcases h2' with h2' | ⟨hp2, hs2⟩
        · exact Or.inl (optLT_trans h1' h2')
        · rw [← hp2]
          exact Or.inl h1'
      · rcases h2' with h2' | ⟨hp2, hs2⟩
        · rw [hp1]
          exact Or.inl h2'
        · exact Or.inr ⟨hp1.trans hp2, le_trans hs1 hs2⟩

lemma rowLE_total : ∀ (a b : IRow), rowLE a b || rowLE b a := by
  intro a b
  simp only [rowLE, Bool.or_eq_true, Bool.and_eq_true, decide_eq_true_eq]
  by_cases h1 : optLT a.ipKey b.ipKey = true
  · exact Or.inl (Or.inl h1)
  by_cases h2 : optLT b.ipKey a.ipKey = true
  · exact Or.inr (Or.inl h2)
  have he : a.ipKey = b.ipKey := optLT_connex (by simpa using h1) (by simpa using h2)
  by_cases h3 : optLT a.plenKey b.plenKey = true
  · exact Or.inl (Or.inr ⟨he, Or.inl h3⟩)
  by_cases h4 : optLT b.plenKey a.plenKey = true
  · exact Or.inr (Or.inr ⟨he.symm, Or.inl h4⟩)
  have hp : a.plenKey = b.plenKey := optLT_connex (by simpa using h3) (by simpa using h4)
  rcases le_total a.status b.status with h5 | h5
  · exact Or.inl (Or.inr ⟨he, Or.inr ⟨hp, h5⟩⟩)
  · exact Or.inr (Or.inr ⟨he.symm, Or.inr ⟨hp.symm, h5⟩⟩)

lemma rowLE_of_keys_eq {r s : IRow} (h1 : r.ipKey = s.ipKey) (h2 : r.plenKey = s.plenKey)
    (h3 : r.status = s.status) : rowLE r s = true := by
  simp only [rowLE, Bool.or_eq_true, Bool.and_eq_true, decide_eq_true_eq]
  exact Or.inr ⟨h1, Or.inr ⟨h2, le_of_eq h3⟩⟩

/-- Specification-side reading of the address-key order of the claim: a
numeric key comes before a larger numeric key, and every numeric key
comes before the infinite key of an entry that is not a number. -/
def KeyBefore (a b : Option Nat) : Prop :=
  (∃ x y, a = some x ∧ b = some y ∧ x < y) ∨ (a ≠ none ∧ b = none)

/-- Specification-side reading of the Normalizer's sort order: (1) by
numeric network address, rows whose address does not parse keyed as
infinite and sorting last, (2) prefix length ascending, (3) status name
ascending as the final tiebreaker. -/
def RowSpecLE (r s : IRow) : Prop :=
  KeyBefore r.ipKey s.ipKey ∨
    (r.ipKey = s.ipKey ∧
      (KeyBefore r.plenKey s.plenKey ∨
        (r.plenKey = s.plenKey ∧ r.status ≤ s.status)))

lemma optLT_keyBefore {a b : Option Nat} (h : optLT a b = true) : KeyBefore a b := by
  unfold KeyBefore
  cases a with
  | none => cases b <;> simp [optLT] at h
  | some x =>
    cases b with
    | none => exact Or.inr ⟨Option.some_ne_none x, rfl⟩
    | some y =>
      simp only [optLT, decide_eq_true_eq] at h
      exact Or.inl ⟨x, y, rfl, rfl, h⟩

lemma rowLE_rowSpecLE {r s : IRow} (h : rowLE r s = true) : RowSpecLE r s := by
  simp only [rowLE, Bool.or_eq_true, Bool.and_eq_true, decide_eq_true_eq] at h
  unfold RowSpecLE
  rcases h with h | ⟨he, h⟩
  · exact Or.inl (optLT_keyBefore h)
  · refine Or.inr ⟨he, ?_⟩
    rcases h with h | ⟨hp, hs⟩
    · exact Or.inl (optLT_keyBefore h)
    · exact Or.inr ⟨hp, hs⟩

/-- C6: the Normalizer is a stable sort of the row set keyed by (1) the
numeric network address, rows whose address does not parse getting an
infinite key and sorting last, (2) prefix length ascending, (3) status
name ascending; it permutes the rows, its output is sorted for that
lexicographic order, and rows tied on all three keys keep their input
relative order (for every key triple, the subsequence of rows carrying
exactly that triple is unchanged). -/
theorem sort_ipam_dataframe_spec (rows : List IRow) :
    (sort_ipam_dataframe rows).Perm rows ∧
    (sort_ipam_dataframe rows).Pairwise RowSpecLE ∧
    ∀ k₁ k₂ k₃, (sort_ipam_dataframe rows).filter
        (fun r => decide (r.ipKey = k₁) && decide (r.plenKey = k₂) &&
          decide (r.status = k₃))
      = rows.filter
        (fun r => decide (r.ipKey = k₁) && decide (r.plenKey = k₂) &&
          decide (r.status = k₃)) := by
  refine ⟨List.mergeSort_perm rows rowLE, ?_, ?_⟩
  · exact (List.sorted_mergeSort rowLE_trans rowLE_total rows).imp rowLE_rowSpecLE
  · intro k₁ k₂ k₃
    set p : IRow → Bool := fun r => decide (r.ipKey = k₁) && decide (r.plenKey = k₂) &&
      decide (r.status = k₃) with hpdef
    have hobs : ∀ x ∈ rows.filter p, ∀ y ∈ rows.filter p, rowLE x y = true := by
      intro x hx y hy
      rw [List.mem_filter] at hx hy
      have hx2 := hx.2
      have hy2 := hy.2
      simp only [hpdef, Bool.and_eq_true, decide_eq_true_eq] at hx2 hy2
      exact rowLE_of_keys_eq (hx2.1.1.trans hy2.1.1.symm)
        (hx2.1.2.trans hy2.1.2.symm) (hx2.2.trans hy2.2.symm)
    have hcpair : (rows.filter p).Pairwise (fun a b => rowLE a b = true) :=
      List.pairwise_of_forall_mem_list hobs
    have hsub : (rows.filter p).Sublist (rows.mergeSort rowLE) :=
      List.sublist_mergeSort rowLE_trans rowLE_total hcpair (List.filter_sublist rows)
    have hallp : ∀ x ∈ rows.filter p, p x = true := fun x hx => (List.mem_filter.mp hx).2
    have hsub2 : (rows.filter p).Sublist ((rows.mergeSort rowLE).filter p) := by
      have h9 := hsub.filter p
      rwa [List.filter_eq_self.mpr hallp] at h9
    have hlen : (rows.filter p).length = ((rows.mergeSort rowLE).filter p).length :=
      (((List.mergeSort_perm rows rowLE).filter p).length_eq).symm
    exact (hsub2.eq_of_length hlen).symm

/-- C7: the Normalizer is deterministic: two runs of
`sort_ipam_dataframe` on identical input row sets produce identical
ordered output. -/
theorem sort_ipam_dataframe_deterministic (rows₁ rows₂ : List IRow)
    (h : rows₁ = rows₂) :
    sort_ipam_dataframe rows₁ = sort_ipam_dataframe rows₂ :=
  congrArg sort_ipam_dataframe h

/-- Witness for `sort_ipam_dataframe_deterministic`. -/
theorem sort_ipam_dataframe_deterministic_witness :
    sort_ipam_dataframe [] = sort_ipam_dataframe [] :=
  sort_ipam_dataframe_deterministic [] [] rfl
